import Mathlib

/-
A shallow embedding of mobilehound's `v0-abstract` message-cipher wrapper
(`Cipher.Seal` / `Cipher.Open`) and of the NIST elliptic-curve point
implementation (`curvePoint`) from `v0-abstract/cipher.go`, together with
theorems checking the natural-language specification against it.

Machine integers do not occur: Go `[]byte` contents are modelled as `List Nat`
with every element `< 256` where that matters, and `big.Int` values as `Nat`
(they are non-negative everywhere they are used here) or `Int` where an
intermediate difference can be negative.
-/

namespace Mobilehound

/-! ### Big-endian byte strings

Model of the `math/big` encoding primitives the source relies on
(an external collaborator per the spec, trusted at its interface):
`(*big.Int).Bytes` returns the minimal big-endian byte encoding (empty for 0)
and `(*big.Int).SetBytes` folds a big-endian byte string back into a number.
`toBytesBE` carries a fuel argument (the number itself suffices, since
`n / 256 < n`) so that it is structurally recursive and evaluates by
`decide` / `rfl` on concrete inputs. -/

def toBytesBEAux : Nat → Nat → List Nat
  | 0, _ => []
  | fuel + 1, n => if n = 0 then [] else toBytesBEAux fuel (n / 256) ++ [n % 256]

/-- Model of `(*big.Int).Bytes`: minimal big-endian bytes, `[]` for zero. -/
def toBytesBE (n : Nat) : List Nat := toBytesBEAux n n

/-- Model of `(*big.Int).SetBytes`: big-endian byte string back to a number. -/
def fromBytesBE (bs : List Nat) : Nat := bs.foldl (fun a b => a * 256 + b) 0

/-- `Bytes` output left-padded with zero bytes to length `l`
(the padding step at the top of `curvePoint.Data`). -/
def padBE (n l : Nat) : List Nat :=
  List.replicate (l - (toBytesBE n).length) 0 ++ toBytesBE n

def bitLenAux : Nat → Nat → Nat
  | 0, _ => 0
  | fuel + 1, n => if n = 0 then 0 else bitLenAux fuel (n / 2) + 1

/-- Model of `(*big.Int).BitLen`: length of the minimal binary
representation, `0` for `0`. -/
def bitLen (n : Nat) : Nat := bitLenAux n n

instance {ε α : Type} [DecidableEq ε] [DecidableEq α] : DecidableEq (Except ε α) :=
  fun a b =>
    match a, b with
    | .error e1, .error e2 =>
      if h : e1 = e2 then isTrue (by rw [h])
      else isFalse (by intro hc; injection hc; contradiction)
    | .ok v1, .ok v2 =>
      if h : v1 = v2 then isTrue (by rw [h])
      else isFalse (by intro hc; injection hc; contradiction)
    | .error _, .ok _ => isFalse (by intro hc; exact Except.noConfusion hc)
    | .ok _, .error _ => isFalse (by intro hc; exact Except.noConfusion hc)

/-! ### The `v0-subtle` constant-time primitives -/

namespace Subtle

/-- Modelled from the spec: `v0-subtle.ConstantTimeAllEq(mac, 0)` (the package
is not under `src/`; `Cipher.Open` calls it at line 347). Per the spec it is a
"data-independent fixed-iteration OR-accumulation over all bytes, never a
short-circuiting comparison", returning 1 when every byte equals the reference
value and 0 otherwise. -/
def ConstantTimeAllEq (b : List Nat) (v : Nat) : Nat :=
  if b.foldl (fun acc x => acc ||| (x ^^^ v)) 0 = 0 then 1 else 0

/-- Instrumented copy of the `ConstantTimeAllEq` accumulation loop: it carries
the OR-accumulator together with the number of loop iterations executed, so
that the fixed-iteration (no early exit) property can be stated. -/
def ctAllEqTrace (b : List Nat) (v : Nat) : Nat × Nat :=
  b.foldl (fun acc x => (acc.1 ||| (x ^^^ v), acc.2 + 1)) (0, 0)

end Subtle

/-! ### The abstract message cipher (`v0-abstract/cipher.go`)

`CipherState` is a Go interface; the spec (§4.1) fixes its observable
contract.  A `Message(dst, src, key)` call on state `s` processes
`n = max(len(dst), len(src), len(key))` bytes: it XORs `src` (zero-padded)
with `n` pseudorandom bytes determined by `s`, truncates the output to
`len(dst)`, absorbs the `n` (zero-padded) key bytes, and establishes a message
boundary.  The model below captures exactly that contract with two abstract
components: `stream s n` — the pseudorandom bytes such a call produces — and
`absorb s n key` — the state after such a call.  `Clone` yields a state with
identical future behaviour, i.e. the same abstract state value. -/

namespace Abstract

structure CipherModel (σ : Type) where
  keySize : Nat
  hashSize : Nat
  stream : σ → Nat → List Nat
  absorb : σ → Nat → List Nat → σ

/-- Zero-pad (or truncate) a byte list to length `n`: short `src`/`key`
arguments of `Message` are read as zero bytes past their end. -/
def padTo (bs : List Nat) (n : Nat) : List Nat :=
  (List.range n).map fun i => bs.getD i 0

/-- The `dst` bytes a `Message`/`Partial` call writes: pseudorandom stream
XORed with the (zero-padded) `src`, truncated to the `dst` length. -/
def xorStream (ks src : List Nat) (dlen : Nat) : List Nat :=
  (List.range dlen).map fun i => ks.getD i 0 ^^^ src.getD i 0

/-- One `Message(dst, src, key)` call where `key` does not alias `dst`:
returns the bytes written to `dst` and the successor state. -/
def msgCall {σ : Type} (mo : CipherModel σ) (s : σ) (dlen : Nat)
    (src key : List Nat) : List Nat × σ :=
  let n := max dlen (max src.length key.length)
  (xorStream (mo.stream s n) src dlen, mo.absorb s n (padTo key n))

/-- One `Message(dst, src, dst)` call where the `key` slice is exactly the
`dst` slice (the `c.Message(ctx, src, ctx)` call in `Seal`): the absorbed key
bytes are the ciphertext bytes the call itself writes. -/
def msgCallKeyIsDst {σ : Type} (mo : CipherModel σ) (s : σ) (dlen : Nat)
    (src : List Nat) : List Nat × σ :=
  let n := max dlen src.length
  let out := xorStream (mo.stream s n) src dlen
  (out, mo.absorb s n (padTo out n))

/-- `Cipher.Seal` (cipher.go lines 309–321).  `util.Grow(dst, l+m)` (package
`v0-util`, not under `src/`; per the spec it appends a fresh zero buffer of
the requested length and returns it alongside the grown slice) supplies the
`ctx ++ mac` buffer, which the two `Message` calls overwrite completely, so
the returned slice is `dst ++ ctx ++ mac`. -/
def Seal {σ : Type} (mo : CipherModel σ) (s : σ) (dst src : List Nat) :
    List Nat × σ :=
  let l := src.length
  let m := mo.keySize
  let (ctx, s1) := msgCallKeyIsDst mo s l src  -- c.Message(ctx, src, ctx)
  let (mac, s2) := msgCall mo s1 m [] []       -- c.Message(mac, nil, nil)
  (dst ++ ctx ++ mac, s2)

inductive OpenError where
  | sealedTooShort    -- errors.New("sealed ciphertext too short")
  | authFailed        -- errors.New("ciphertext authentication failed")
  | indexOutOfRange   -- Go runtime panic: index out of range on &msg[0]
  deriving DecidableEq, Repr

/-- `Cipher.Open` (cipher.go lines 328–352).  `l := len(src) - m` with the
`l < 0` guard becomes a `len(src) < m` test on `Nat`.  `util.Grow(dst, l)`
yields a fresh zero-filled message buffer `msg` of length `l`; when `l = 0`
the aliasing test `&msg[0] != &ctx[0]` indexes the empty `msg` slice and the
Go runtime panics, modelled by the `indexOutOfRange` outcome.  When `l > 0`
the two branches of the aliasing test write the same byte values, so the
value-semantics model has a single decryption path. -/
def Open {σ : Type} (mo : CipherModel σ) (s : σ) (dst src : List Nat) :
    Except OpenError (List Nat) × σ :=
  let m := mo.keySize
  if src.length < m then (.error .sealedTooShort, s)
  else
    let l := src.length - m
    let ctx := src.take l
    let mac := src.drop l
    if l = 0 then (.error .indexOutOfRange, s)
    else
      let (msg, s1) := msgCall mo s l ctx ctx       -- c.Message(msg, ctx, ctx)
      let (macOut, s2) := msgCall mo s1 m mac []    -- c.Message(mac, mac, nil)
      if Subtle.ConstantTimeAllEq macOut 0 = 0 then (.error .authFailed, s2)
      else (.ok (dst ++ msg), s2)

/-- The contents of the `mac` buffer after `Open`'s second `Message` call —
the recomputed MAC XORed in place onto the received MAC by
`c.Message(mac, mac, nil)` — for an input long enough to reach that call. -/
def openMacBuffer {σ : Type} (mo : CipherModel σ) (s : σ) (src : List Nat) :
    List Nat :=
  let m := mo.keySize
  let l := src.length - m
  let ctx := src.take l
  let mac := src.drop l
  (msgCall mo (msgCall mo s l ctx ctx).2 m mac []).1

/-- A concrete `CipherModel` instance for evaluating the theorems on
concrete inputs: the state is a counter, the pseudorandom stream at state `s`
is the constant byte `(s + 7) % 256`, and absorbing bumps the counter by the
byte count plus the absorbed bytes. -/
def toyCipher : CipherModel Nat where
  keySize := 2
  hashSize := 4
  stream s n := List.replicate n ((s + 7) % 256)
  absorb s n key := s + n + key.foldl (· + ·) 0 + 1

end Abstract

/-! ### The NIST curve group (`package nist` half of the source file) -/

namespace Nist

/-- The fields of Go's `elliptic.CurveParams` that the source reads. -/
structure CurveParams where
  P : Nat
  N : Nat
  B : Nat
  Gx : Nat
  Gy : Nat
  BitSize : Nat

/-- The `curve` struct: its parameters plus the two external collaborators the
point code calls — Go's `elliptic.Curve.IsOnCurve` membership test and the
curve-specific square root from the `curveOps` interface. -/
structure curve where
  params : CurveParams
  isOnCurve : Nat → Nat → Bool
  sqrt : Nat → Nat

/-- `curvePoint`: the two (non-negative, `big.Int`) coordinates.  The `c`
back-reference of the Go struct is passed explicitly to every operation. -/
structure curvePoint where
  x : Nat
  y : Nat
  deriving DecidableEq, Repr

/-- `curve.coordLen` (lines 602–604). -/
def coordLen (c : curve) : Nat := (c.params.BitSize + 7) / 8

/-- `curve.PointLen` (lines 609–611). -/
def PointLen (c : curve) : Nat := 1 + 2 * coordLen c

/-- `curvePoint.PickLen` (lines 458–463). -/
def PickLen (c : curve) : Nat := (bitLen c.params.P - 8 - 8) / 8

/-- `curvePoint.Valid` (lines 416–423). `x.Sign() == 0` on a non-negative
`big.Int` means `x = 0`. -/
def Valid (c : curve) (p : curvePoint) : Bool :=
  c.isOnCurve p.x p.y || (p.x == 0 && p.y == 0)

/-- Observable result of `curvePoint.Equal` (lines 390–402): both operands'
coordinates are reduced `Mod` the field prime `M = p.c.p.P` and then compared
with `Cmp`, so the result is comparison of residues.  (The in-place `Mod`
writes are modelled at the heap level by `equalHeapOp` below.) -/
def Equal (c : curve) (p q : curvePoint) : Bool :=
  (p.x % c.params.P == q.x % c.params.P) && (p.y % c.params.P == q.y % c.params.P)

/-- `curvePoint.genPoint` (lines 427–456): compute `y² = x³ - 3x + B mod P`
(`big.Int` arithmetic, so the intermediate difference lives in `Int` and
`Mod` returns the non-negative residue), take the curve-specific square root,
flip its sign (`y := P - y`) when the high bit of the byte drawn from the
random stream is set, and accept only if `y·y mod P` really equals `y²`. -/
def genPoint (c : curve) (x : Nat) (signByte : Nat) : Option curvePoint :=
  let y2 : Nat := (((x : Int) * x * x - (2 * x + x) + c.params.B) % (c.params.P : Int)).toNat
  let y0 := c.sqrt y2
  let y := if signByte &&& 0x80 ≠ 0 then c.params.P - y0 else y0
  if (y * y) % c.params.P ≠ y2 then none
  else some ⟨x, y⟩

/-- `curvePoint.Pick` (lines 467–485).  `random.Bits(P.BitLen(), false, rand)`
(package `v0-random`, not under `src/`; modelled from the spec as drawing
`⌈bits/8⌉` fresh random bytes per iteration) and the one random sign byte per
`genPoint` call are modelled by the explicit list of per-iteration randomness
`(candidate bytes, sign byte)`; the list length bounds the number of
rejection-sampling iterations, and running out of it models the
non-terminating case of the Go `for` loop.  With non-nil data, `b[l-1] =
byte(dl)` writes the length tag and `copy(b[l-dl-1:l-1], data)` copies the
`dl ≤ len(data)` embedded bytes in front of it; `embedBytes` is that tag
write (`b[l-1] = byte(dl)`, a truncating byte conversion) followed by the
in-place copy, expressed on list values. -/
def embedBytes (l dl : Nat) (cand d : List Nat) : List Nat :=
  let b1 := cand.set (l - 1) (dl % 256)
  b1.take (l - dl - 1) ++ d.take dl ++ b1.drop (l - 1)

/-- The rejection-sampling loop of `curvePoint.Pick`. -/
def Pick (c : curve) (data : Option (List Nat)) :
    List (List Nat × Nat) → Option (curvePoint × List Nat)
  | [] => none
  | (cand, signByte) :: rest =>
    let l := coordLen c
    let d := data.getD []
    let dl := min (PickLen c) d.length
    let b :=
      match data with
      | some _ => embedBytes l dl cand d
      | none => cand
    match genPoint c (fromBytesBE b) signByte with
    | some p => some (p, d.drop dl)
    | none => Pick c data rest

/-- `curvePoint.Data` (lines 488–499): take the minimal big-endian bytes of
`x`, left-pad with zero bytes to the coordinate length if short, read the
embedded-length tag `dl` from `b[l-1]` and return `b[l-dl-1 : l-1]` unless
the tag exceeds `PickLen`. -/
def Data (c : curve) (p : curvePoint) : Except String (List Nat) :=
  let b0 := toBytesBE p.x
  let l := coordLen c
  let b := if b0.length < l then List.replicate (l - b0.length) 0 ++ b0 else b0
  let dl := b.getD (l - 1) 0
  if dl > PickLen c then .error "invalid embedded data length"
  else .ok ((b.take (l - 1)).drop (l - dl - 1))

/-- Modelled from the spec, for the refinement comparison of claim C5 only:
the spec's words say `Data` reads "the length tag from the byte immediately
preceding the final byte", i.e. from `b[l-2]`; everything else as in the
source's `Data`.  The source reads the tag from the final byte `b[l-1]`. -/
def DataSpecReading (c : curve) (p : curvePoint) : Except String (List Nat) :=
  let b0 := toBytesBE p.x
  let l := coordLen c
  let b := if b0.length < l then List.replicate (l - b0.length) 0 ++ b0 else b0
  let dl := b.getD (l - 2) 0
  if dl > PickLen c then .error "invalid embedded data length"
  else .ok ((b.take (l - 1)).drop (l - dl - 1))

/-- Go `crypto/elliptic.Marshal` (external library): uncompressed ANSI X9.62
encoding — header byte 4 followed by the two coordinates, each big-endian and
zero-left-padded to the coordinate length. -/
def ellipticMarshal (c : curve) (x y : Nat) : List Nat :=
  4 :: (padBE x (coordLen c) ++ padBE y (coordLen c))

/-- `curvePoint.MarshalBinary` (lines 542–544). -/
def MarshalBinary (c : curve) (p : curvePoint) : List Nat :=
  ellipticMarshal c p.x p.y

/-- Go `crypto/elliptic.Unmarshal` (external library, as of the Go releases
this code targets): rejects a buffer of the wrong length or header byte,
otherwise returns the two big-endian coordinates; curve membership is left to
the caller (`UnmarshalBinary` checks `Valid` itself). -/
def ellipticUnmarshal (c : curve) (buf : List Nat) : Option (Nat × Nat) :=
  let l := coordLen c
  if buf.length = 1 + 2 * l ∧ buf.getD 0 0 = 4 then
    some (fromBytesBE ((buf.drop 1).take l), fromBytesBE (buf.drop (1 + l)))
  else none

/-- `curvePoint.UnmarshalBinary` (lines 546–565): OR together every byte after
the header (reading all of them, no short-circuit); an all-zero body yields
the identity point `(0,0)`; anything else goes through the uncompressed-point
parser and is rejected unless it decodes (`p.x != nil`) to a `Valid` point. -/
def UnmarshalBinary (c : curve) (buf : List Nat) : Except String curvePoint :=
  let acc := (buf.drop 1).foldl (· ||| ·) 0
  if acc ≠ 0 then
    match ellipticUnmarshal c buf with
    | none => .error "invalid elliptic curve point"
    | some (x, y) =>
      if Valid c ⟨x, y⟩ then .ok ⟨x, y⟩
      else .error "invalid elliptic curve point"
  else .ok ⟨0, 0⟩

/-! #### Heap-level model of coordinate sharing (claim C9)

`curvePoint.Clone`/`Set` copy `*big.Int` pointers, so two points can share
coordinate objects.  To talk about in-place mutation of shared objects the
coordinates are modelled as references (`PtRef`) into a heap of `big.Int`
cells.  The only operation in the source that writes through an existing
coordinate pointer is `Equal` (its four `Mod` calls); every other operation
(`Null`, `Base`, `Add`, `Sub`, `Mul`, `genPoint`, `Pick`, `UnmarshalBinary`,
`Set`, `Clone`) rebinds `p.x`/`p.y` to freshly allocated `big.Int` objects or
to existing ones, never writing an existing cell. -/

def Heap : Type := Nat → Nat

/-- A point whose coordinates are references to heap cells. -/
structure PtRef where
  xi : Nat
  yi : Nat
  deriving DecidableEq, Repr

/-- In-place `v.Mod(v, M)` on the cell at index `i`. -/
def modCell (h : Heap) (i M : Nat) : Heap :=
  fun j => if j = i then h j % M else h j

/-- `curvePoint.Equal` (lines 390–402) at the heap level: it `Mod`-reduces all
four coordinate cells in place (in source order) and then `Cmp`-compares. -/
def equalHeapOp (M : Nat) (p q : PtRef) (h : Heap) : Bool × Heap :=
  let h1 := modCell h p.xi M
  let h2 := modCell h1 p.yi M
  let h3 := modCell h2 q.xi M
  let h4 := modCell h3 q.yi M
  ((h4 p.xi == h4 q.xi) && (h4 p.yi == h4 q.yi), h4)

/-- `curvePoint.Set` (lines 620–624): `p.x = P.x; p.y = P.y` copies the
coordinate references; the heap is untouched. -/
def setHeapOp (_p q : PtRef) : PtRef := ⟨q.xi, q.yi⟩

/-- `curvePoint.Clone` (lines 626–628): a new point sharing the coordinate
references; the heap is untouched. -/
def cloneHeapOp (p : PtRef) : PtRef := ⟨p.xi, p.yi⟩

/-- The rebinding operations (`Null`, `Base`, `Add`, `Sub`, `Mul`, `genPoint`,
`UnmarshalBinary`): the result coordinates `nx, ny` (computed by the external
arithmetic engine) are stored in freshly allocated cells at and above `next`,
and the point's references are rebound to them. -/
def rebindHeapOp (h : Heap) (next nx ny : Nat) : PtRef × Heap × Nat :=
  (⟨next, next + 1⟩,
   fun j => if j = next then nx else if j = next + 1 then ny else h j,
   next + 2)

/-- A 3-bit toy curve instance for evaluating the marshaling theorems on
concrete inputs: `y² = x³ + 4x + 1 mod 7` (so `(0,1)` is on the curve). -/
def toyCurve7 : curve where
  params := { P := 7, N := 7, B := 1, Gx := 0, Gy := 1, BitSize := 3 }
  isOnCurve x y := (y * y) % 7 == (x * x * x + 4 * x + 1) % 7
  sqrt n := n

/-- A 24-bit toy curve instance for evaluating the embedding theorems on
concrete inputs.  `B` is chosen so that the x-coordinate built from candidate
bytes `[18, 171, 1]` has `x³ - 3x + B ≡ 25 (mod P)`, and the external square
root is the constant `5`, so `genPoint` accepts on the first iteration. -/
def toyCurve24 : curve where
  params := { P := 16777215, N := 16777213, B := 11042595, Gx := 0, Gy := 0, BitSize := 24 }
  isOnCurve x y := (y * y) % 16777215 == (x * x * x + 11042595 + 3 * (16777215 - x % 16777215)) % 16777215
  sqrt _ := 5

/-- A 24-bit toy curve whose `PickLen` is 1, for the claim-C5 counterexample
point; only `Data` is evaluated on it. -/
def toyCurve24' : curve where
  params := { P := 16777215, N := 16777213, B := 0, Gx := 0, Gy := 0, BitSize := 24 }
  isOnCurve _ _ := false
  sqrt n := n

end Nist

theorem toBytesBEAux_congr :
    ∀ f₁ f₂ n, n ≤ f₁ → n ≤ f₂ → toBytesBEAux f₁ n = toBytesBEAux f₂ n := by
  intro f₁
  induction f₁ with
  | zero =>
    intro f₂ n h₁ _
    interval_cases n
    cases f₂ <;> simp [toBytesBEAux]
  | succ f ih =>
    intro f₂ n h₁ h₂
    by_cases hn : n = 0
    · subst hn; cases f₂ <;> simp [toBytesBEAux]
    · obtain ⟨f₂', rfl⟩ : ∃ k, f₂ = k + 1 := by
        cases f₂ with
        | zero => omega
        | succ k => exact ⟨k, rfl⟩
      have hlt : n / 256 < n := Nat.div_lt_self (Nat.pos_of_ne_zero hn) (by norm_num)
      simp only [toBytesBEAux, if_neg hn]
      rw [ih (f₂') (n / 256) (by omega) (by omega)]

theorem toBytesBE_eq {n : Nat} (hn : n ≠ 0) :
    toBytesBE n = toBytesBE (n / 256) ++ [n % 256] := by
  obtain ⟨m, rfl⟩ : ∃ k, n = k + 1 := by
    cases n with
    | zero => omega
    | succ k => exact ⟨k, rfl⟩
  show toBytesBEAux (m + 1) (m + 1) = _
  simp only [toBytesBEAux, if_neg hn]
  rw [toBytesBEAux_congr m ((m + 1) / 256) ((m + 1) / 256)
    (by omega) (le_refl _)]
  rfl

theorem toBytesBE_zero : toBytesBE 0 = [] := rfl

/-- Every number fits in its own minimal byte encoding. -/
theorem lt_pow_length_toBytesBE (n : Nat) : n < 256 ^ (toBytesBE n).length := by
  induction n using Nat.strong_induction_on with
  | _ n ih =>
    by_cases hn : n = 0
    · subst hn; simp [toBytesBE_zero]
    · rw [toBytesBE_eq hn]
      have hlt : n / 256 < n := Nat.div_lt_self (Nat.pos_of_ne_zero hn) (by norm_num)
      have h := ih (n / 256) hlt
      simp only [List.length_append, List.length_cons, List.length_nil]
      have hmod : n % 256 < 256 := Nat.mod_lt _ (by norm_num)
      have hdm := Nat.div_add_mod n 256
      calc n = 256 * (n / 256) + n % 256 := hdm.symm
        _ < 256 * (256 ^ (toBytesBE (n / 256)).length) := by omega
        _ = 256 ^ ((toBytesBE (n / 256)).length + 1) := by ring

theorem length_toBytesBE_le {n l : Nat} (h : n < 256 ^ l) :
    (toBytesBE n).length ≤ l := by
  induction n using Nat.strong_induction_on generalizing l with
  | _ n ih =>
    by_cases hn : n = 0
    · subst hn; simp [toBytesBE_zero]
    · rw [toBytesBE_eq hn]
      have hl : l ≠ 0 := by
        rintro rfl
        simp at h
        omega
      obtain ⟨l', rfl⟩ : ∃ k, l = k + 1 := by
        cases l with
        | zero => omega
        | succ k => exact ⟨k, rfl⟩
      have hlt : n / 256 < n := Nat.div_lt_self (Nat.pos_of_ne_zero hn) (by norm_num)
      have hdiv : n / 256 < 256 ^ l' := by
        rw [Nat.div_lt_iff_lt_mul (by norm_num : (0:Nat) < 256)]
        calc n < 256 ^ (l' + 1) := h
          _ = 256 ^ l' * 256 := by ring
      have := ih (n / 256) hlt hdiv
      simp only [List.length_append, List.length_cons, List.length_nil]
      omega

theorem mem_toBytesBE_lt {n x : Nat} (h : x ∈ toBytesBE n) : x < 256 := by
  induction n using Nat.strong_induction_on with
  | _ n ih =>
    by_cases hn : n = 0
    · rw [hn, toBytesBE_zero] at h; simp at h
    · rw [toBytesBE_eq hn] at h
      rcases List.mem_append.mp h with h' | h'
      · exact ih (n / 256) (Nat.div_lt_self (Nat.pos_of_ne_zero hn) (by norm_num)) h'
      · simp at h'
        subst h'
        exact Nat.mod_lt _ (by norm_num)

theorem fromBytesBE_toBytesBE (n : Nat) : fromBytesBE (toBytesBE n) = n := by
  induction n using Nat.strong_induction_on with
  | _ n ih =>
    by_cases hn : n = 0
    · rw [hn, toBytesBE_zero]; rfl
    · rw [toBytesBE_eq hn]
      unfold fromBytesBE
      rw [List.foldl_append]
      have := ih (n / 256) (Nat.div_lt_self (Nat.pos_of_ne_zero hn) (by norm_num))
      unfold fromBytesBE at this
      rw [this]
      simp [List.foldl_cons]
      omega

theorem length_padBE {n l : Nat} (h : n < 256 ^ l) : (padBE n l).length = l := by
  have := length_toBytesBE_le h
  simp [padBE]
  omega

theorem padBE_succ {n l : Nat} (h : n < 256 ^ (l + 1)) :
    padBE n (l + 1) = padBE (n / 256) l ++ [n % 256] := by
  by_cases hn : n = 0
  · subst hn
    show List.replicate (l + 1 - 0) 0 ++ [] = List.replicate (l - 0) 0 ++ [] ++ [0 % 256]
    simp [List.replicate_succ' l 0]
  · have hb := toBytesBE_eq hn
    have hdiv : n / 256 < 256 ^ l := by
      rw [Nat.div_lt_iff_lt_mul (by norm_num : (0:Nat) < 256)]
      calc n < 256 ^ (l + 1) := h
        _ = 256 ^ l * 256 := by ring
    have hlen : (toBytesBE (n / 256)).length ≤ l := length_toBytesBE_le hdiv
    have e1 : (toBytesBE n).length = (toBytesBE (n / 256)).length + 1 := by
      rw [hb]; simp
    show List.replicate (l + 1 - (toBytesBE n).length) 0 ++ toBytesBE n =
      (List.replicate (l - (toBytesBE (n / 256)).length) 0 ++ toBytesBE (n / 256)) ++ [n % 256]
    rw [e1, hb, List.append_assoc]
    have e2 : l + 1 - ((toBytesBE (n / 256)).length + 1) =
        l - (toBytesBE (n / 256)).length := by omega
    rw [e2]

theorem fromBytesBE_replicate_zero_append (k : Nat) (bs : List Nat) :
    fromBytesBE (List.replicate k 0 ++ bs) = fromBytesBE bs := by
  induction k with
  | zero => rfl
  | succ m ih =>
    show fromBytesBE (0 :: (List.replicate m 0 ++ bs)) = _
    unfold fromBytesBE at ih ⊢
    simpa using ih

theorem fromBytesBE_padBE (n l : Nat) :
    fromBytesBE (padBE n l) = n := by
  rw [padBE, fromBytesBE_replicate_zero_append, fromBytesBE_toBytesBE]

theorem fromBytesBE_append_singleton (bs : List Nat) (a : Nat) :
    fromBytesBE (bs ++ [a]) = fromBytesBE bs * 256 + a := by
  unfold fromBytesBE
  rw [List.foldl_append]
  rfl

theorem fromBytesBE_lt {bs : List Nat} (h : ∀ x ∈ bs, x < 256) :
    fromBytesBE bs < 256 ^ bs.length := by
  induction bs using List.reverseRecOn with
  | nil => simp [fromBytesBE]
  | append_singleton t a ih =>
    rw [fromBytesBE_append_singleton]
    have ht : fromBytesBE t < 256 ^ t.length := ih fun x hx => h x (by simp [hx])
    have ha : a < 256 := h a (by simp)
    simp only [List.length_append, List.length_cons, List.length_nil]
    calc fromBytesBE t * 256 + a < (fromBytesBE t + 1) * 256 := by omega
      _ ≤ 256 ^ t.length * 256 := by
          apply Nat.mul_le_mul_right
          omega
      _ = 256 ^ (t.length + 1) := by ring

theorem padBE_fromBytesBE {bs : List Nat} (h : ∀ x ∈ bs, x < 256) :
    padBE (fromBytesBE bs) bs.length = bs := by
  induction bs using List.reverseRecOn with
  | nil => rfl
  | append_singleton t a ih =>
    have ha : a < 256 := h a (by simp)
    have ht : ∀ x ∈ t, x < 256 := fun x hx => h x (by simp [hx])
    rw [fromBytesBE_append_singleton]
    have hlt : fromBytesBE t * 256 + a < 256 ^ (t.length + 1) := by
      have := fromBytesBE_lt ht
      calc fromBytesBE t * 256 + a < (fromBytesBE t + 1) * 256 := by omega
        _ ≤ 256 ^ t.length * 256 := by
            apply Nat.mul_le_mul_right
            omega
        _ = 256 ^ (t.length + 1) := by ring
    simp only [List.length_append, List.length_cons, List.length_nil]
    rw [padBE_succ hlt]
    have hdiv : (fromBytesBE t * 256 + a) / 256 = fromBytesBE t := by omega
    have hmod : (fromBytesBE t * 256 + a) % 256 = a := by omega
    rw [hdiv, hmod, ih ht]

/-- The bytes of `padBE n l` are the base-256 digits of `n`, most significant
first. -/
theorem padBE_getD {n l : Nat} (h : n < 256 ^ l) :
    ∀ i, i < l → (padBE n l).getD i 0 = n / 256 ^ (l - 1 - i) % 256 := by
  induction l generalizing n with
  | zero => omega
  | succ l' ih =>
    intro i hi
    rw [padBE_succ h]
    have hlen : (padBE (n / 256) l').length = l' := by
      apply length_padBE
      rw [Nat.div_lt_iff_lt_mul (by norm_num : (0:Nat) < 256)]
      calc n < 256 ^ (l' + 1) := h
        _ = 256 ^ l' * 256 := by ring
    by_cases hil : i < l'
    · rw [List.getD_eq_getElem?_getD, List.getElem?_append, if_pos (by omega)]
      rw [← List.getD_eq_getElem?_getD]
      have hdiv : n / 256 < 256 ^ l' := by
        rw [Nat.div_lt_iff_lt_mul (by norm_num : (0:Nat) < 256)]
        calc n < 256 ^ (l' + 1) := h
          _ = 256 ^ l' * 256 := by ring
      rw [ih hdiv i hil, Nat.div_div_eq_div_mul]
      have e : (256 : Nat) * 256 ^ (l' - 1 - i) = 256 ^ (l' + 1 - 1 - i) := by
        rw [← Nat.pow_succ']
        congr 1
        omega
      rw [e]
    · have hieq : i = l' := by omega
      subst hieq
      rw [List.getD_eq_getElem?_getD, List.getElem?_append, if_neg (by omega)]
      simp [hlen]

/-- An OR-fold over a byte list is zero exactly when the accumulator and
every byte are zero. -/
theorem foldl_or_eq_zero (bs : List Nat) (a : Nat) :
    bs.foldl (· ||| ·) a = 0 ↔ a = 0 ∧ ∀ b ∈ bs, b = 0 := by
  induction bs generalizing a with
  | nil => simp
  | cons x t ih =>
    simp only [List.foldl_cons, ih, List.mem_cons]
    have hor : a ||| x = 0 ↔ a = 0 ∧ x = 0 := by
      constructor
      · intro h
        constructor
        · apply Nat.eq_of_testBit_eq
          intro i
          have := congrArg (fun z => z.testBit i) h
          simp only [Nat.testBit_or] at this
          simp [Nat.zero_testBit] at this ⊢
          exact this.1
        · apply Nat.eq_of_testBit_eq
          intro i
          have := congrArg (fun z => z.testBit i) h
          simp only [Nat.testBit_or] at this
          simp [Nat.zero_testBit] at this ⊢
          exact this.2
      · rintro ⟨rfl, rfl⟩
        rfl
    rw [hor]
    constructor
    · rintro ⟨⟨ha, hx⟩, ht⟩
      exact ⟨ha, fun b hb => hb.elim (fun h => h ▸ hx) (ht b)⟩
    · rintro ⟨ha, ht⟩
      exact ⟨⟨ha, ht x (Or.inl rfl)⟩, fun b hb => ht b (Or.inr hb)⟩

/-! ### Helper lemmas about the cipher model -/

theorem length_xorStream (ks src : List Nat) (dlen : Nat) :
    (Abstract.xorStream ks src dlen).length = dlen := by
  simp [Abstract.xorStream]

theorem xorStream_getD (ks src : List Nat) (dlen i : Nat) (hi : i < dlen) :
    (Abstract.xorStream ks src dlen).getD i 0 = ks.getD i 0 ^^^ src.getD i 0 := by
  rw [Abstract.xorStream,
    List.getD_eq_getElem ((List.range dlen).map _) 0 (by simpa using hi)]
  simp

theorem padTo_eq_self (bs : List Nat) : Abstract.padTo bs bs.length = bs := by
  apply List.ext_getElem
  · simp [Abstract.padTo]
  · intro i h1 h2
    simp only [Abstract.padTo] at h1 ⊢
    simp only [List.getElem_map, List.getElem_range]
    rw [List.getD_eq_getElem bs 0 (by simpa using h2)]

theorem ctAllEq_eq_one_iff (b : List Nat) (v : Nat) :
    Subtle.ConstantTimeAllEq b v = 1 ↔ ∀ x ∈ b, x = v := by
  unfold Subtle.ConstantTimeAllEq
  have hmap : b.foldl (fun acc x => acc ||| (x ^^^ v)) 0 =
      (b.map (· ^^^ v)).foldl (· ||| ·) 0 := by
    rw [List.foldl_map]
  rw [hmap]
  by_cases h : (b.map (· ^^^ v)).foldl (· ||| ·) 0 = 0
  · rw [if_pos h]
    rw [foldl_or_eq_zero] at h
    simp only [List.mem_map] at h
    constructor
    · intro _ x hx
      have := h.2 (x ^^^ v) ⟨x, hx, rfl⟩
      exact Nat.xor_eq_zero.mp this
    · intro _
      rfl
  · rw [if_neg h]
    constructor
    · intro h01
      exact absurd h01 (by norm_num)
    · intro hall
      exfalso
      apply h
      rw [foldl_or_eq_zero]
      refine ⟨rfl, ?_⟩
      intro y hy
      rcases List.mem_map.mp hy with ⟨x, hx, rfl⟩
      exact Nat.xor_eq_zero.mpr (hall x hx)

theorem ctAllEqTrace_snd (b : List Nat) (v : Nat) (p : Nat × Nat) :
    (b.foldl (fun acc x => (acc.1 ||| (x ^^^ v), acc.2 + 1)) p).2 = p.2 + b.length := by
  induction b generalizing p with
  | nil => simp
  | cons x t ih =>
    simp only [List.foldl_cons, ih, List.length_cons]
    omega

theorem ctAllEqTrace_fst (b : List Nat) (v : Nat) (p : Nat × Nat) :
    (b.foldl (fun acc x => (acc.1 ||| (x ^^^ v), acc.2 + 1)) p).1 =
      b.foldl (fun acc x => acc ||| (x ^^^ v)) p.1 := by
  induction b generalizing p with
  | nil => rfl
  | cons x t ih =>
    simp only [List.foldl_cons, ih]

theorem modCell_mod (h : Nist.Heap) (j M i : Nat) :
    (Nist.modCell h j M) i % M = h i % M := by
  unfold Nist.modCell
  by_cases hij : i = j
  · rw [if_pos hij, Nat.mod_mod_of_dvd _ dvd_rfl]
  · rw [if_neg hij]

/-! ### Claim C2: `Open` and too-short input -/

/-- Claim C2: `Open(dst, src)` fails with the malformed-input error exactly
when `len(src) < KeySize()`, and in that case it returns before touching the
underlying cipher state: the final state equals the initial state for every
model of the `CipherState` contract (in particular for a model whose `absorb`
counts invocations), so no `Message` call is made. -/
theorem open_short_input_iff {σ : Type} (mo : Abstract.CipherModel σ) (s : σ)
    (dst src : List Nat) :
    ((Abstract.Open mo s dst src).1 = .error .sealedTooShort ↔
      src.length < mo.keySize)
    ∧ (src.length < mo.keySize →
      Abstract.Open mo s dst src = (.error .sealedTooShort, s)) := by
  by_cases hshort : src.length < mo.keySize
  · constructor
    · rw [Abstract.Open, if_pos hshort]
      simp [hshort]
    · intro _
      rw [Abstract.Open, if_pos hshort]
  · have hres : (Abstract.Open mo s dst src).1 ≠ .error .sealedTooShort := by
      rw [Abstract.Open, if_neg hshort]
      by_cases hzero : src.length - mo.keySize = 0
      · simp only [hzero, if_pos rfl]
        intro hcontra
        simp at hcontra
      · simp only [if_neg hzero]
        by_cases hmac : Subtle.ConstantTimeAllEq
            (Abstract.msgCall mo
              (Abstract.msgCall mo s (src.length - mo.keySize)
                (src.take (src.length - mo.keySize))
                (src.take (src.length - mo.keySize))).2
              mo.keySize (src.drop (src.length - mo.keySize)) []).1 0 = 0
        · simp only [if_pos hmac]
          intro hcontra
          simp at hcontra
        · simp only [if_neg hmac]
          intro hcontra
          simp at hcontra
    constructor
    · constructor
      · intro hc
        exact absurd hc hres
      · intro hc
        exact absurd hc hshort
    · intro hc
      exact absurd hc hshort

/-- Witness for C2 at a concrete input: the toy model has `KeySize() = 2` and
a 1-byte input is rejected with the untouched initial state. -/
theorem open_short_input_iff_witness :
    (Abstract.Open Abstract.toyCipher 0 [] [9]).1 = .error .sealedTooShort
    ∧ Abstract.Open Abstract.toyCipher 0 [] [9] = (.error .sealedTooShort, 0) :=
  ⟨(open_short_input_iff Abstract.toyCipher 0 [] [9]).1.mpr (by decide),
   (open_short_input_iff Abstract.toyCipher 0 [] [9]).2 (by decide)⟩

/-! ### Claim C4: the MAC check is a fixed-iteration constant-time scan -/

/-- Claim C4: `Open`'s MAC verification primitive is a single fixed-iteration
OR-accumulation over every byte: the instrumented loop executes exactly
`len(b)` iterations, the iteration count depends only on the buffer length
(never on the byte values — no early exit, no byte-distinguishing branch),
the primitive's result is determined by the final accumulator being zero, and
it reports success exactly when every byte equals the reference value. -/
theorem constant_time_mac_check (b b' : List Nat) (v v' : Nat)
    (hlen : b'.length = b.length) :
    (Subtle.ctAllEqTrace b v).2 = b.length
    ∧ (Subtle.ctAllEqTrace b' v').2 = (Subtle.ctAllEqTrace b v).2
    ∧ Subtle.ConstantTimeAllEq b v =
        (if (Subtle.ctAllEqTrace b v).1 = 0 then 1 else 0)
    ∧ (Subtle.ConstantTimeAllEq b v = 1 ↔ ∀ x ∈ b, x = v) := by
  refine ⟨?_, ?_, ?_, ctAllEq_eq_one_iff b v⟩
  · rw [Subtle.ctAllEqTrace, ctAllEqTrace_snd]
    simp
  · rw [Subtle.ctAllEqTrace, Subtle.ctAllEqTrace, ctAllEqTrace_snd,
      ctAllEqTrace_snd, hlen]
  · rw [Subtle.ConstantTimeAllEq, Subtle.ctAllEqTrace, ctAllEqTrace_fst]

/-- Witness for C4 at concrete buffers of equal length but different
contents: both scans run exactly 2 iterations. -/
theorem constant_time_mac_check_witness :
    (Subtle.ctAllEqTrace [3, 5] 0).2 = 2
    ∧ (Subtle.ctAllEqTrace [9, 9] 1).2 = (Subtle.ctAllEqTrace [3, 5] 0).2
    ∧ Subtle.ConstantTimeAllEq [3, 5] 0 =
        (if (Subtle.ctAllEqTrace [3, 5] 0).1 = 0 then 1 else 0)
    ∧ (Subtle.ConstantTimeAllEq [3, 5] 0 = 1 ↔ ∀ x ∈ [3, 5], x = 0) :=
  constant_time_mac_check [3, 5] [9, 9] 0 1 (by decide)

/-! ### Claim C7: `Valid` -/

/-- Claim C7: `Valid()` holds exactly when the underlying on-curve membership
test accepts the coordinates or the coordinates are exactly `(0, 0)`, the
identity special case. -/
theorem valid_iff (c : Nist.curve) (p : Nist.curvePoint) :
    Nist.Valid c p = true ↔
      (c.isOnCurve p.x p.y = true ∨ (p.x = 0 ∧ p.y = 0)) := by
  rw [Nist.Valid]
  rw [Bool.or_eq_true, Bool.and_eq_true]
  simp [beq_iff_eq]

/-! ### Claim C9: shared coordinates are never changed as field values -/

/-- Claim C9: `Clone`/`Set` share coordinate objects by reference, and no
operation ever changes the field value a shared coordinate cell holds:
`Equal` (the only operation that writes through existing coordinate pointers,
via its four in-place `Mod` reductions) leaves every heap cell congruent
mod `M` to its previous contents, and the rebinding operations (`Null`,
`Base`, `Add`, `Sub`, `Mul`, …) write only freshly allocated cells, leaving
every previously allocated cell (index below `next`) untouched. -/
theorem shared_coordinates_preserved (M : Nat) (p q r : Nist.PtRef)
    (h : Nist.Heap) (next nx ny i : Nat) :
    ((Nist.equalHeapOp M p q h).2 i) % M = h i % M
    ∧ Nist.cloneHeapOp p = p
    ∧ Nist.setHeapOp r q = ⟨q.xi, q.yi⟩
    ∧ (i < next → ((Nist.rebindHeapOp h next nx ny).2.1) i = h i) := by
  refine ⟨?_, rfl, rfl, ?_⟩
  · show (Nist.modCell (Nist.modCell (Nist.modCell (Nist.modCell h p.xi M)
      p.yi M) q.xi M) q.yi M) i % M = h i % M
    rw [modCell_mod, modCell_mod, modCell_mod, modCell_mod]
  · intro hlt
    show (fun j => if j = next then nx else if j = next + 1 then ny else h j) i = h i
    simp only
    rw [if_neg (by omega), if_neg (by omega)]

/-- Witness for C9 at a concrete heap: the cell shared by `p` and its clone
holds `10`; after `Equal` with modulus `3` it still represents `10 mod 3`,
and a rebinding allocation at `next = 5` leaves it untouched. -/
theorem shared_coordinates_preserved_witness :
    ((Nist.equalHeapOp 3 ⟨0, 1⟩ ⟨0, 1⟩ (fun _ => 10)).2 0) % 3 = (fun _ : Nat => 10) 0 % 3
    ∧ Nist.cloneHeapOp ⟨0, 1⟩ = (⟨0, 1⟩ : Nist.PtRef)
    ∧ Nist.setHeapOp ⟨2, 3⟩ ⟨0, 1⟩ = (⟨0, 1⟩ : Nist.PtRef)
    ∧ (0 < 5 → ((Nist.rebindHeapOp (fun _ => 10) 5 8 9).2.1) 0 = (fun _ : Nat => 10) 0) :=
  shared_coordinates_preserved 3 ⟨0, 1⟩ ⟨0, 1⟩ ⟨2, 3⟩ (fun _ => 10) 5 8 9 0

theorem xorStream_involutive (ks src : List Nat) :
    Abstract.xorStream ks (Abstract.xorStream ks src src.length) src.length = src := by
  apply List.ext_getElem
  · simp [length_xorStream]
  · intro i h1 h2
    have hi : i < src.length := by simpa [length_xorStream] using h1
    rw [← List.getD_eq_getElem _ 0 h1]
    rw [xorStream_getD _ _ _ _ hi, xorStream_getD _ _ _ _ hi,
      Nat.xor_cancel_left, List.getD_eq_getElem src 0 h2]

theorem xorStream_nil_self (ks : List Nat) (m : Nat) :
    Abstract.xorStream ks (Abstract.xorStream ks [] m) m = List.replicate m 0 := by
  apply List.ext_getElem
  · simp [length_xorStream]
  · intro i h1 h2
    have hi : i < m := by simpa [length_xorStream] using h1
    rw [← List.getD_eq_getElem _ 0 h1]
    rw [xorStream_getD _ _ _ _ hi, xorStream_getD _ _ _ _ hi]
    simp

theorem ctAllEq_zero_or_one (b : List Nat) (v : Nat) :
    Subtle.ConstantTimeAllEq b v = 0 ∨ Subtle.ConstantTimeAllEq b v = 1 := by
  unfold Subtle.ConstantTimeAllEq
  by_cases h : b.foldl (fun acc x => acc ||| (x ^^^ v)) 0 = 0
  · right
    rw [if_pos h]
  · left
    rw [if_neg h]

theorem seal_eq {σ : Type} (mo : Abstract.CipherModel σ) (s : σ)
    (dst src : List Nat) :
    Abstract.Seal mo s dst src =
      (dst ++ Abstract.xorStream (mo.stream s src.length) src src.length ++
        Abstract.xorStream
          (mo.stream (mo.absorb s src.length
            (Abstract.padTo
              (Abstract.xorStream (mo.stream s src.length) src src.length)
              src.length)) mo.keySize)
          [] mo.keySize,
       mo.absorb
         (mo.absorb s src.length
           (Abstract.padTo
             (Abstract.xorStream (mo.stream s src.length) src src.length)
             src.length))
         mo.keySize (Abstract.padTo [] mo.keySize)) := by
  rw [Abstract.Seal]
  simp only [Abstract.msgCallKeyIsDst, Abstract.msgCall, Nat.max_self,
    List.length_nil, Nat.max_zero, List.append_assoc]

/-! ### Claim C1 (amended): seal/open round trip for nonempty messages -/

/-- Claim C1, amended to nonempty `src` (for `src = []` the source panics, see
the counterexample): sealing with one cipher and opening with an
identically-keyed, freshly-cloned cipher (`Clone` yields a state with the
same future behaviour, so both start from the same abstract state `s`)
returns exactly `src` with a nil error. -/
theorem seal_open_roundtrip {σ : Type} (mo : Abstract.CipherModel σ) (s : σ)
    (src : List Nat) (hne : src ≠ []) :
    (Abstract.Open mo s [] (Abstract.Seal mo s [] src).1).1 = Except.ok src := by
  have hL : src.length ≠ 0 := fun h => hne (List.eq_nil_of_length_eq_zero h)
  rw [seal_eq]
  set C := Abstract.xorStream (mo.stream s src.length) src src.length with hC
  set S1 := mo.absorb s src.length (Abstract.padTo C src.length) with hS1
  set M := Abstract.xorStream (mo.stream S1 mo.keySize) [] mo.keySize with hM
  have hCl : C.length = src.length := length_xorStream _ _ _
  have hMl : M.length = mo.keySize := length_xorStream _ _ _
  show (Abstract.Open mo s [] ([] ++ C ++ M)).1 = Except.ok src
  have hlen : ([] ++ C ++ M).length = src.length + mo.keySize := by
    simp [hCl, hMl]
  simp only [Abstract.Open]
  rw [if_neg (by rw [hlen]; omega)]
  rw [hlen, Nat.add_sub_cancel]
  rw [if_neg hL]
  have htake : ([] ++ C ++ M).take src.length = C := by
    rw [List.nil_append]
    exact List.take_left' hCl
  have hdrop : ([] ++ C ++ M).drop src.length = M := by
    rw [List.nil_append]
    exact List.drop_left' hCl
  rw [htake, hdrop]
  simp only [Abstract.msgCall, hCl, hMl, Nat.max_self, List.length_nil,
    Nat.max_zero]
  rw [← hS1]
  rw [hM, xorStream_nil_self]
  have hct : Subtle.ConstantTimeAllEq (List.replicate mo.keySize 0) 0 = 1 :=
    (ctAllEq_eq_one_iff _ _).mpr fun x hx => List.eq_of_mem_replicate hx
  rw [hct]
  rw [if_neg (by norm_num)]
  rw [hC, xorStream_involutive]
  rfl

/-- Witness for C1 at a concrete input: the toy cipher round-trips the
3-byte message `[1, 2, 3]`. -/
theorem seal_open_roundtrip_witness :
    (Abstract.Open Abstract.toyCipher 0 []
      (Abstract.Seal Abstract.toyCipher 0 [] [1, 2, 3]).1).1 =
      Except.ok [1, 2, 3] :=
  seal_open_roundtrip Abstract.toyCipher 0 [1, 2, 3] (by decide)

/-- Counterexample to C1 as stated ("for every byte slice src"): for the
empty message, `Seal` produces a `KeySize()`-byte sealed buffer, and `Open`
on it does not return `ok []` — it reaches `&msg[0]` on the zero-length
message buffer and the Go runtime panics with an index-out-of-range error. -/
theorem seal_open_empty_src_fails :
    (Abstract.Open Abstract.toyCipher 0 []
      (Abstract.Seal Abstract.toyCipher 0 [] []).1).1 =
      Except.error Abstract.OpenError.indexOutOfRange
    ∧ (Abstract.Open Abstract.toyCipher 0 []
      (Abstract.Seal Abstract.toyCipher 0 [] []).1).1 ≠
      Except.ok ([] : List Nat) := by
  constructor
  · rfl
  · intro h
    rw [show (Abstract.Open Abstract.toyCipher 0 []
      (Abstract.Seal Abstract.toyCipher 0 [] []).1).1 =
      Except.error Abstract.OpenError.indexOutOfRange from rfl] at h
    exact Except.noConfusion h

/-! ### Claim C10: `Open` on an input of length exactly `KeySize()` -/

/-- Claim C10 evaluated at its failing input (code bug): an input of length
exactly `KeySize()` — the shape `Seal` produces for empty plaintext — passes
the short-input guard (which rejects only `len(src) < KeySize()`), but `Open`
then evaluates `&msg[0]` on the zero-length message buffer `util.Grow(dst, 0)`
returned, which is an index-out-of-range runtime panic, not the nil-error
empty-plaintext return the claim describes. -/
theorem open_keysize_length_input :
    (Abstract.Seal Abstract.toyCipher 0 [] []).1.length = Abstract.toyCipher.keySize
    ∧ ¬ (Abstract.toyCipher.keySize < 2)
    ∧ (Abstract.Open Abstract.toyCipher 0 [] [7, 7]).1 =
        Except.error Abstract.OpenError.indexOutOfRange
    ∧ (Abstract.Open Abstract.toyCipher 0 [] [7, 7]).1 ≠
        Except.ok ([] : List Nat) := by
  refine ⟨rfl, by decide, rfl, ?_⟩
  intro h
  rw [show (Abstract.Open Abstract.toyCipher 0 [] [7, 7]).1 =
    Except.error Abstract.OpenError.indexOutOfRange from rfl] at h
  exact Except.noConfusion h

/-! ### Claim C3: authentication succeeds iff the XORed MAC buffer is zero -/

/-- Claim C3: for an input long enough to reach the MAC check, `Open`
succeeds exactly when the received MAC XORed with the recomputed MAC
(`openMacBuffer`) is all-zero; when that buffer is nonzero, `Open` returns
the authentication error, and the decrypted output is discarded (the error
return carries no destination slice, matching the source's `return nil,
errors.New(...)`). -/
theorem open_auth_iff {σ : Type} (mo : Abstract.CipherModel σ) (s : σ)
    (dst src : List Nat) (hlong : mo.keySize < src.length) :
    ((∃ out, (Abstract.Open mo s dst src).1 = .ok out) ↔
      ∀ b ∈ Abstract.openMacBuffer mo s src, b = 0)
    ∧ ((¬ ∀ b ∈ Abstract.openMacBuffer mo s src, b = 0) →
      (Abstract.Open mo s dst src).1 = .error .authFailed) := by
  simp only [Abstract.Open, Abstract.openMacBuffer]
  rw [if_neg (by omega)]
  rw [if_neg (by omega : ¬ src.length - mo.keySize = 0)]
  set macOut := (Abstract.msgCall mo
    (Abstract.msgCall mo s (src.length - mo.keySize)
      (src.take (src.length - mo.keySize))
      (src.take (src.length - mo.keySize))).2
    mo.keySize (src.drop (src.length - mo.keySize)) []).1 with hmo
  by_cases hz : ∀ b ∈ macOut, b = 0
  · have h1 : Subtle.ConstantTimeAllEq macOut 0 = 1 :=
      (ctAllEq_eq_one_iff _ _).mpr hz
    rw [h1, if_neg (by norm_num)]
    refine ⟨⟨fun _ => hz, fun _ => ⟨dst ++ _, rfl⟩⟩, fun hcon => absurd hz hcon⟩
  · have h0 : Subtle.ConstantTimeAllEq macOut 0 = 0 := by
      rcases ctAllEq_zero_or_one macOut 0 with h | h
      · exact h
      · exact absurd ((ctAllEq_eq_one_iff _ _).mp h) hz
    rw [h0, if_pos rfl]
    refine ⟨⟨?_, fun h => absurd h hz⟩, fun _ => rfl⟩
    rintro ⟨out, hout⟩
    exact absurd hout (by simp)

/-- Witness for C3 at a concrete input: on the toy cipher, the 3-byte input
`[1, 2, 3]` has a nonzero XORed MAC buffer and `Open` reports the
authentication failure. -/
theorem open_auth_iff_witness :
    Abstract.toyCipher.keySize < 3
    ∧ (Abstract.Open Abstract.toyCipher 0 [] [1, 2, 3]).1 =
        .error .authFailed :=
  ⟨by decide,
   (open_auth_iff Abstract.toyCipher 0 [] [1, 2, 3] (by decide)).2 (by decide)⟩

/-! ### Helper lemmas about `Data` -/

theorem getD_concat_length (xs : List Nat) (a : Nat) :
    (xs ++ [a]).getD xs.length 0 = a := by
  rw [List.getD_eq_getElem?_getD, List.getElem?_append, if_neg (by omega)]
  simp

/-- The padding step at the top of `Data` produces `padBE x l` whenever `x`
fits in `l` bytes (when the encoding is already `l` bytes long, the `if` is
skipped and the padding is empty). -/
theorem data_pad_eq (x l : Nat) (hx : x < 256 ^ l) :
    (if (toBytesBE x).length < l
      then List.replicate (l - (toBytesBE x).length) 0 ++ toBytesBE x
      else toBytesBE x) = padBE x l := by
  by_cases h : (toBytesBE x).length < l
  · rw [if_pos h]
    rfl
  · rw [if_neg h]
    have hlen : (toBytesBE x).length = l :=
      le_antisymm (length_toBytesBE_le hx) (by omega)
    rw [padBE, hlen, Nat.sub_self]
    rfl

/-! ### Claim C5 (amended): `Data` extraction -/

/-- Counterexample to C5 as stated: the claim reads the embedded-length tag
from the byte immediately preceding the final byte.  On a 24-bit curve
(`coordLen = 3`, `PickLen = 1`) with `x = 0x050701` (padded encoding
`[5, 7, 1]`), that byte is `7 > PickLen()`, so the claim predicts failure —
and the variant that follows the spec's words does fail — but the source
reads the tag from the final byte (`1`) and succeeds, returning `[7]`. -/
theorem data_tag_byte_counterexample :
    (padBE (329473 : Nat) (Nist.coordLen Nist.toyCurve24')).getD
        (Nist.coordLen Nist.toyCurve24' - 2) 0 = 7
    ∧ Nist.PickLen Nist.toyCurve24' < 7
    ∧ Nist.Data Nist.toyCurve24' ⟨329473, 0⟩ = Except.ok [7]
    ∧ Nist.DataSpecReading Nist.toyCurve24' ⟨329473, 0⟩ =
        Except.error "invalid embedded data length" := by decide

/-- Claim C5, amended: `Data()` left-pads the x-coordinate's big-endian
encoding to the curve's coordinate length `l`, reads the embedded-length tag
`dl` from the *final* byte `b[l-1]` of that encoding (the least-significant
byte, `x mod 256`) — not from the byte preceding it — fails with an error
exactly when the tag exceeds `PickLen()`, and otherwise returns the `dl`
bytes immediately preceding the final byte, i.e. the base-256 digits
`x / 256^(dl-k) mod 256` for `k < dl`. -/
theorem data_extraction (c : Nist.curve) (p : Nist.curvePoint)
    (hx : p.x < 256 ^ Nist.coordLen c)
    (hgap : Nist.PickLen c + 2 ≤ Nist.coordLen c) :
    (Nist.Data c p = Except.error "invalid embedded data length" ↔
      Nist.PickLen c < p.x % 256)
    ∧ (p.x % 256 ≤ Nist.PickLen c →
      Nist.Data c p = Except.ok ((List.range (p.x % 256)).map
        fun k => p.x / 256 ^ (p.x % 256 - k) % 256)) := by
  have hl : 2 ≤ Nist.coordLen c := by omega
  simp only [Nist.Data]
  rw [data_pad_eq _ _ hx]
  have htag : (padBE p.x (Nist.coordLen c)).getD (Nist.coordLen c - 1) 0 =
      p.x % 256 := by
    rw [padBE_getD hx _ (by omega)]
    have h0 : Nist.coordLen c - 1 - (Nist.coordLen c - 1) = 0 := by omega
    rw [h0]
    simp
  rw [htag]
  by_cases hgt : Nist.PickLen c < p.x % 256
  · rw [if_pos (by omega)]
    exact ⟨⟨fun _ => hgt, fun _ => rfl⟩, fun hle => absurd hgt (by omega)⟩
  · rw [if_neg (by omega)]
    have hdl : p.x % 256 ≤ Nist.PickLen c := by omega
    constructor
    · constructor
      · intro h
        exact absurd h (by simp)
      · intro h
        exact absurd h (by omega)
    · intro _
      congr 1
      have hpl : (padBE p.x (Nist.coordLen c)).length = Nist.coordLen c :=
        length_padBE hx
      apply List.ext_getElem
      · simp only [List.length_drop, List.length_take, hpl, List.length_map,
          List.length_range]
        omega
      · intro i h1 h2
        have hi : i < p.x % 256 := by simpa using h2
        have hidx : Nist.coordLen c - p.x % 256 - 1 + i < Nist.coordLen c := by
          omega
        rw [List.getElem_drop, List.getElem_take]
        rw [← List.getD_eq_getElem _ 0 (by rw [hpl]; omega)]
        rw [padBE_getD hx _ hidx]
        simp only [List.getElem_map, List.getElem_range]
        have he : Nist.coordLen c - 1 - (Nist.coordLen c - p.x % 256 - 1 + i) =
            p.x % 256 - i := by omega
        rw [he]

/-- Witness for the amended C5 at a concrete input: on the 24-bit toy curve
the point with `x = 0x040201` has tag `1 ≤ PickLen` and `Data` returns the
byte `[2]` preceding the final byte. -/
theorem data_extraction_witness :
    (Nist.Data Nist.toyCurve24' ⟨262657, 0⟩ =
        Except.error "invalid embedded data length" ↔
      Nist.PickLen Nist.toyCurve24' < 262657 % 256)
    ∧ (262657 % 256 ≤ Nist.PickLen Nist.toyCurve24' →
      Nist.Data Nist.toyCurve24' ⟨262657, 0⟩ =
        Except.ok ((List.range (262657 % 256)).map
          fun k => 262657 / 256 ^ (262657 % 256 - k) % 256)) :=
  data_extraction Nist.toyCurve24' ⟨262657, 0⟩ (by decide) (by decide)

/-! ### Claim C6: `Pick`/`Data` embedding round trip -/

theorem genPoint_x (c : Nist.curve) (x sb : Nat) (q : Nist.curvePoint)
    (h : Nist.genPoint c x sb = some q) : q.x = x := by
  simp only [Nist.genPoint] at h
  split at h
  · split at h
    · exact absurd h (by simp)
    · injection h with h'
      rw [← h']
  · split at h
    · exact absurd h (by simp)
    · injection h with h'
      rw [← h']

theorem drop_length_sub_one {L : List Nat} (h : L.length ≠ 0) :
    L.drop (L.length - 1) = [L.getD (L.length - 1) 0] := by
  rw [List.drop_eq_getElem_cons (by omega)]
  have h1 : L.length - 1 + 1 = L.length := by omega
  rw [h1, List.drop_length, List.getD_eq_getElem _ 0 (by omega)]

/-- With `dl = len(data) < 256` and `dl + 2 ≤ l`, the tag write and data copy
of `Pick` produce the candidate prefix, then the data, then the tag byte. -/
theorem embedBytes_eq (l : Nat) (cand d : List Nat)
    (hcl : cand.length = l) (hd2 : d.length + 2 ≤ l) (hdb : d.length < 256) :
    Nist.embedBytes l d.length cand d =
      (cand.set (l - 1) d.length).take (l - d.length - 1) ++ d ++ [d.length] := by
  have hb1 : (cand.set (l - 1) d.length).length = l := by
    rw [List.length_set, hcl]
  have hdrop : (cand.set (l - 1) d.length).drop (l - 1) = [d.length] := by
    have h0 : (cand.set (l - 1) d.length).length ≠ 0 := by omega
    have hds := drop_length_sub_one h0
    rw [hb1] at hds
    rw [hds]
    have hget : (cand.set (l - 1) d.length).getD (l - 1) 0 = d.length := by
      rw [List.getD_eq_getElem _ 0 (by omega)]
      exact List.getElem_set_self (by omega)
    rw [hget]
  simp only [Nist.embedBytes]
  rw [Nat.mod_eq_of_lt hdb, List.take_length, hdrop]

/-- Extracting from a point whose x-coordinate was built as
`prefix ++ data ++ [len(data)]` returns exactly the data. -/
theorem data_of_embedded (c : Nist.curve) (d A : List Nat)
    (q : Nist.curvePoint)
    (hdp : d.length ≤ Nist.PickLen c)
    (hgap : Nist.PickLen c + 2 ≤ Nist.coordLen c)
    (hA : A.length = Nist.coordLen c - d.length - 1)
    (hAb : ∀ x ∈ A, x < 256) (hdb : ∀ x ∈ d, x < 256)
    (hdlb : d.length < 256)
    (hqx : q.x = fromBytesBE (A ++ d ++ [d.length])) :
    Nist.Data c q = Except.ok d := by
  have hBlen : (A ++ d ++ [d.length]).length = Nist.coordLen c := by
    simp only [List.length_append, List.length_cons, List.length_nil]
    omega
  have hBb : ∀ x ∈ A ++ d ++ [d.length], x < 256 := by
    intro x hx
    rcases List.mem_append.mp hx with h | h
    · rcases List.mem_append.mp h with h' | h'
      · exact hAb x h'
      · exact hdb x h'
    · simp only [List.mem_singleton] at h
      omega
  have hX : fromBytesBE (A ++ d ++ [d.length]) < 256 ^ Nist.coordLen c := by
    have := fromBytesBE_lt hBb
    rwa [hBlen] at this
  have hpad : padBE (fromBytesBE (A ++ d ++ [d.length])) (Nist.coordLen c) =
      A ++ d ++ [d.length] := by
    have := padBE_fromBytesBE hBb
    rwa [hBlen] at this
  have hAd : (A ++ d).length = Nist.coordLen c - 1 := by
    simp only [List.length_append]
    omega
  simp only [Nist.Data, hqx]
  rw [data_pad_eq _ _ hX, hpad]
  have hassoc : A ++ d ++ [d.length] = (A ++ d) ++ [d.length] := by
    rw [List.append_assoc]
  have htag : (A ++ d ++ [d.length]).getD (Nist.coordLen c - 1) 0 = d.length := by
    rw [hassoc, ← hAd, getD_concat_length]
  rw [htag]
  rw [if_neg (by omega)]
  have htake : (A ++ d ++ [d.length]).take (Nist.coordLen c - 1) = A ++ d := by
    rw [hassoc]
    exact List.take_left' hAd
  rw [htake]
  have hdropA : (A ++ d).drop (Nist.coordLen c - d.length - 1) = d :=
    List.drop_left' hA
  rw [hdropA]

/-- Claim C6: for every non-nil byte payload `d` with
`len(d) ≤ PickLen()` and every sequence of per-iteration randomness, whenever
the rejection-sampling loop of `Pick` terminates with a point, extracting
with `Data()` returns exactly `d` (and the returned remainder is empty),
regardless of how many iterations were rejected.  The hypotheses on the
candidate byte strings (length `coordLen`, byte-valued) hold for every
`random.Bits(P.BitLen(), false, ·)` output on a curve with
`BitSize = P.BitLen()`, and `PickLen < 256` holds for every curve below 2064
bits (beyond that the `byte(dl)` tag write would truncate). -/
theorem pick_data_roundtrip (c : Nist.curve) (d : List Nat)
    (iters : List (List Nat × Nat)) (p : Nist.curvePoint) (rem : List Nat)
    (hd : d.length ≤ Nist.PickLen c)
    (hdb : ∀ x ∈ d, x < 256)
    (hPL : Nist.PickLen c < 256)
    (hgap : Nist.PickLen c + 2 ≤ Nist.coordLen c)
    (hc : ∀ pr ∈ iters, pr.1.length = Nist.coordLen c ∧ ∀ x ∈ pr.1, x < 256)
    (hres : Nist.Pick c (some d) iters = some (p, rem)) :
    Nist.Data c p = Except.ok d ∧ rem = [] := by
  induction iters with
  | nil => simp [Nist.Pick] at hres
  | cons pr rest ih =>
    obtain ⟨cand, sb⟩ := pr
    obtain ⟨hcl, hcb⟩ := hc (cand, sb) (List.mem_cons_self _ _)
    simp only [Nist.Pick, Option.getD_some, Nat.min_eq_right hd] at hres
    cases hE : Nist.genPoint c
        (fromBytesBE (Nist.embedBytes (Nist.coordLen c) d.length cand d)) sb with
    | none =>
      rw [hE] at hres
      exact ih (fun pr hpr => hc pr (List.mem_cons_of_mem _ hpr)) hres
    | some q =>
      rw [hE] at hres
      simp only [Option.some.injEq, Prod.mk.injEq] at hres
      obtain ⟨hqp, hrem⟩ := hres
      subst hqp
      constructor
      · have hqx := genPoint_x c _ sb q hE
        rw [embedBytes_eq (Nist.coordLen c) cand d hcl (by omega) (by omega)]
          at hqx
        apply data_of_embedded c d
          ((cand.set (Nist.coordLen c - 1) d.length).take
            (Nist.coordLen c - d.length - 1)) q hd hgap
        · rw [List.length_take, List.length_set, hcl]
          omega
        · intro x hx
          rcases List.mem_or_eq_of_mem_set (List.mem_of_mem_take hx) with h | h
          · exact hcb x h
          · omega
        · exact hdb
        · omega
        · exact hqx
      · rw [← hrem, List.drop_length]

/-- Witness for C6 at a concrete input: on the 24-bit toy curve, `Pick`
embeds the byte payload `[171]` on its first iteration (candidate bytes
`[18, 0, 0]`, sign byte 0, so `genPoint` accepts the point
`(0x12AB01, 5)`), and `Data` extracts exactly `[171]`. -/
theorem pick_data_roundtrip_witness :
    Nist.Data Nist.toyCurve24 ⟨1223425, 5⟩ = Except.ok [171]
    ∧ ([] : List Nat) = [] :=
  pick_data_roundtrip Nist.toyCurve24 [171] [([18, 0, 0], 0)] ⟨1223425, 5⟩ []
    (by decide) (by decide) (by decide) (by decide) (by decide) (by decide)

/-! ### Claim C8: point (de)serialization round trip -/

theorem padBE_zero (l : Nat) : padBE 0 l = List.replicate l 0 := by
  rw [padBE, toBytesBE_zero]
  simp

theorem fromBytesBE_of_all_zero {bs : List Nat} (h : ∀ b ∈ bs, b = 0) :
    fromBytesBE bs = 0 := by
  have hrep : bs = List.replicate bs.length 0 := List.eq_replicate_of_mem h
  rw [hrep]
  have := fromBytesBE_replicate_zero_append bs.length []
  simpa using this

/-- Claim C8: (i) for every valid point with reduced (encodable) coordinates,
`UnmarshalBinary ∘ MarshalBinary` succeeds and the decoded point is `Equal`
to the original after coordinate reduction; (ii) the identity `(0,0)`
marshals to an all-zero body after the header byte (so the round trip goes
through the identity path, which scans every body byte); (iii) any buffer
with a nonzero body that decodes to an absent or invalid point is rejected
with an error. -/
theorem marshal_unmarshal_roundtrip (c : Nist.curve) (p : Nist.curvePoint)
    (hx : p.x < 256 ^ Nist.coordLen c) (hy : p.y < 256 ^ Nist.coordLen c)
    (hv : Nist.Valid c p = true) :
    (∃ q, Nist.UnmarshalBinary c (Nist.MarshalBinary c p) = Except.ok q
      ∧ Nist.Equal c q p = true)
    ∧ (∀ b ∈ (Nist.MarshalBinary c ⟨0, 0⟩).drop 1, b = 0)
    ∧ (∀ buf : List Nat, (buf.drop 1).foldl (· ||| ·) 0 ≠ 0 →
        (Nist.ellipticUnmarshal c buf = none ∨
          ∃ x y, Nist.ellipticUnmarshal c buf = some (x, y) ∧
            Nist.Valid c ⟨x, y⟩ = false) →
        Nist.UnmarshalBinary c buf = Except.error "invalid elliptic curve point") := by
  obtain ⟨px, py⟩ := p
  simp only at hx hy hv
  refine ⟨?_, ?_, ?_⟩
  · -- round trip
    have hlx : (padBE px (Nist.coordLen c)).length = Nist.coordLen c :=
      length_padBE hx
    have hly : (padBE py (Nist.coordLen c)).length = Nist.coordLen c :=
      length_padBE hy
    have hbody : (Nist.MarshalBinary c ⟨px, py⟩).drop 1 =
        padBE px (Nist.coordLen c) ++ padBE py (Nist.coordLen c) := by
      simp [Nist.MarshalBinary, Nist.ellipticMarshal]
    by_cases hid : px = 0 ∧ py = 0
    · obtain ⟨rfl, rfl⟩ := hid
      refine ⟨⟨0, 0⟩, ?_, by simp [Nist.Equal]⟩
      rw [Nist.UnmarshalBinary, hbody]
      rw [if_neg ?hz]
      case hz =>
        simp only [ne_eq, not_not]
        rw [foldl_or_eq_zero]
        refine ⟨rfl, ?_⟩
        intro b hb
        rcases List.mem_append.mp hb with h | h
        all_goals
          rw [padBE_zero] at h
          exact List.eq_of_mem_replicate h
    · refine ⟨⟨px, py⟩, ?_, by simp [Nist.Equal]⟩
      rw [Nist.UnmarshalBinary, hbody]
      rw [if_pos ?hnz]
      case hnz =>
        intro hfold
        rw [foldl_or_eq_zero] at hfold
        apply hid
        constructor
        · have hall : ∀ b ∈ padBE px (Nist.coordLen c), b = 0 := by
            intro b hb
            exact hfold.2 b (List.mem_append.mpr (Or.inl hb))
          have h0 := fromBytesBE_of_all_zero hall
          rw [fromBytesBE_padBE] at h0
          exact h0
        · have hall : ∀ b ∈ padBE py (Nist.coordLen c), b = 0 := by
            intro b hb
            exact hfold.2 b (List.mem_append.mpr (Or.inr hb))
          have h0 := fromBytesBE_of_all_zero hall
          rw [fromBytesBE_padBE] at h0
          exact h0
      have hEU : Nist.ellipticUnmarshal c (Nist.MarshalBinary c ⟨px, py⟩) =
          some (px, py) := by
        rw [Nist.ellipticUnmarshal]
        rw [if_pos ?hok]
        case hok =>
          constructor
          · simp [Nist.MarshalBinary, Nist.ellipticMarshal, hlx, hly]
            omega
          · simp [Nist.MarshalBinary, Nist.ellipticMarshal]
        have htk : ((Nist.MarshalBinary c ⟨px, py⟩).drop 1).take (Nist.coordLen c) =
            padBE px (Nist.coordLen c) := by
          rw [hbody]
          exact List.take_left' hlx
        have hdr : (Nist.MarshalBinary c ⟨px, py⟩).drop (1 + Nist.coordLen c) =
            padBE py (Nist.coordLen c) := by
          have h1 : (Nist.MarshalBinary c ⟨px, py⟩).drop (1 + Nist.coordLen c) =
              ((Nist.MarshalBinary c ⟨px, py⟩).drop 1).drop (Nist.coordLen c) := by
            rw [List.drop_drop]
          rw [h1, hbody]
          exact List.drop_left' hlx
        rw [htk, hdr, fromBytesBE_padBE, fromBytesBE_padBE]
      rw [hEU]
      simp [hv]
  · -- identity body is all zeroes after the header
    intro b hb
    simp only [Nist.MarshalBinary, Nist.ellipticMarshal] at hb
    rw [List.drop_succ_cons, List.drop_zero] at hb
    rcases List.mem_append.mp hb with h | h
    all_goals
      rw [padBE_zero] at h
      exact List.eq_of_mem_replicate h
  · -- rejection of absent or invalid decodes
    intro buf hnz hbad
    rw [Nist.UnmarshalBinary, if_pos hnz]
    rcases hbad with h | ⟨x, y, hsome, hinv⟩
    · rw [h]
    · rw [hsome]
      simp [hinv]

/-- Witness for C8 at a concrete input: the point `(0, 1)` on the 3-bit toy
curve `y² = x³ + 4x + 1 mod 7` is valid, fits in one byte per coordinate,
and the round trip applies. -/
theorem marshal_unmarshal_roundtrip_witness :
    Nist.Valid Nist.toyCurve7 ⟨0, 1⟩ = true
    ∧ (∃ q, Nist.UnmarshalBinary Nist.toyCurve7
        (Nist.MarshalBinary Nist.toyCurve7 ⟨0, 1⟩) = Except.ok q
        ∧ Nist.Equal Nist.toyCurve7 q ⟨0, 1⟩ = true) :=
  ⟨by decide,
   (marshal_unmarshal_roundtrip Nist.toyCurve7 ⟨0, 1⟩ (by decide) (by decide)
     (by decide)).1⟩

end Mobilehound
